import Mathlib

/-!
Verification of `src/levels/splitter.py`.

The script reads a whole file into a string `s`, computes
`levels = re.split(';.*\n\n', s)`, calls `os.mkdir(dir_name)`, and then for
each index `i` writes `levels[i]` verbatim to the file `str(i+1) + ".txt"`
inside the new directory, skipping segments that are `''` or `.isspace()`.

Strings are embedded as `List Char` (Python `str` is a sequence of Unicode
code points).  Output filenames `str(i+1) + ".txt"` are represented by the
ordinal `i+1 : Nat`; the map `n ↦ str(n) + ".txt"` is injective, so equality
of ordinals models equality of filenames.
-/

namespace Splitter

/-- Python `str.isspace` on a single character: the Unicode whitespace set
used by CPython (`Py_UNICODE_ISSPACE`). -/
def pyIsSpaceChar (c : Char) : Bool :=
  (9 ≤ c.val && c.val ≤ 13) || (28 ≤ c.val && c.val ≤ 32) ||
  c.val = 133 || c.val = 160 || c.val = 5760 ||
  (8192 ≤ c.val && c.val ≤ 8202) ||
  c.val = 8232 || c.val = 8233 || c.val = 8239 || c.val = 8287 || c.val = 12288

/-- Python `str.isspace`: true iff the string is non-empty and every
character is whitespace. -/
def pyIsspace (l : List Char) : Bool :=
  !l.isEmpty && l.all pyIsSpaceChar

/-- The skip test of the loop body: `levels[i] == '' or levels[i].isspace()`. -/
def skipSeg (seg : List Char) : Bool :=
  seg.isEmpty || pyIsspace seg

/-- Attempt to match the part of the regex `;.*\n\n` that follows the `;`,
at the current position.  `.` does not match a newline and `.*` is greedy, so
the regex engine consumes every character up to the first newline and then
requires a second newline immediately after; no backtracking alternative can
succeed (a shorter `.*` leaves a non-newline character where `\n` is
required).  Returns the remainder of the input after the match. -/
def matchAfterSemi : List Char → Option (List Char)
  | [] => none
  | c :: rest =>
    if c = '\n' then
      if rest.head? = some '\n' then some rest.tail else none
    else matchAfterSemi rest

/-- One pass of `re.split(';.*\n\n', s)`: scan left to right, at each `;` try
to match the rest of the pattern; on a match, emit the accumulated segment
and continue after the match; otherwise the character joins the current
segment.  `fuel` is an upper bound on the number of characters left (each
step consumes at least one), making the recursion structural. -/
def splitGoF : Nat → List Char → List Char → List (List Char)
  | _, [], acc => [acc.reverse]
  | 0, c :: rest, acc => [acc.reverse ++ c :: rest]
  | fuel + 1, c :: rest, acc =>
    if c = ';' then
      match matchAfterSemi rest with
      | some rest2 => acc.reverse :: splitGoF fuel rest2 []
      | none => splitGoF fuel rest (c :: acc)
    else splitGoF fuel rest (c :: acc)

/-- The Lean model of `re.split(';.*\n\n', s)`. -/
def reSplit (s : List Char) : List (List Char) :=
  splitGoF s.length s []

/-- Count of the (leftmost, non-overlapping) delimiter matches consumed by
the same scan as `splitGoF`. -/
def countDelimsF : Nat → List Char → Nat
  | _, [] => 0
  | 0, _ :: _ => 0
  | fuel + 1, c :: rest =>
    if c = ';' then
      match matchAfterSemi rest with
      | some rest2 => countDelimsF fuel rest2 + 1
      | none => countDelimsF fuel rest
    else countDelimsF fuel rest

/-- Number of delimiter occurrences in the input. -/
def countDelims (s : List Char) : Nat :=
  countDelimsF s.length s

/-- Pair each element with its 0-based index starting at `k`, mirroring
`for i in range(len(levels))`. -/
def withIdx : Nat → List (List Char) → List (Nat × List Char)
  | _, [] => []
  | k, x :: xs => (k, x) :: withIdx (k + 1) xs

/-- The output files produced for the segment list `l` whose first element
has 0-based index `k`: segment `i` survives iff it is not skipped, and is
then written to ordinal `i + 1` with its content verbatim. -/
def segOutputs (k : Nat) (l : List (List Char)) : List (Nat × List Char) :=
  (withIdx k l).filterMap fun p => if skipSeg p.2 then none else some (p.1 + 1, p.2)

/-- The full name-to-content map of output files produced for input `s`
(when every write succeeds). -/
def splitterOutputs (s : List Char) : List (Nat × List Char) :=
  segOutputs 0 (reSplit s)

/-! Filesystem model.  The output-directory path is in one of three states
before the run; when the directory exists it holds a list of files, each a
pair of an ordinal filename and its content. -/

/-- State of the output directory path. -/
inductive DirState where
  | missingParent : DirState
  | absent : DirState
  | present : List (Nat × List Char) → DirState
deriving DecidableEq

/-- Errors the script can terminate with. -/
inductive SplitError where
  | inputError : SplitError
  | parentMissing : SplitError
  | dirExists : SplitError
  | writeError : Nat → SplitError
deriving DecidableEq

/-- Semantics of `open(path, 'w')` followed by `write`: creates the file if
absent; if a file of that name exists it is truncated and overwritten (mode
`'w'` never fails because the file already exists). -/
def openWriteW (files : List (Nat × List Char)) (name : Nat) (content : List Char) :
    List (Nat × List Char) :=
  if files.any fun p => p.1 = name then
    files.map fun p => if p.1 = name then (name, content) else p
  else files ++ [(name, content)]

/-- The write loop `for i in range(len(levels))`.  `writeOk n` models the
environment: whether creating/writing the file with ordinal `n` succeeds
(false = e.g. permissions or disk full).  On the first failed write the
loop aborts, leaving the files written so far in place. -/
def writeLoop (writeOk : Nat → Bool) :
    List (Nat × List Char) → List (Nat × List Char) →
    List (Nat × List Char) × Option SplitError
  | [], files => (files, none)
  | (i, seg) :: rest, files =>
    if skipSeg seg then writeLoop writeOk rest files
    else if writeOk (i + 1) then writeLoop writeOk rest (openWriteW files (i + 1) seg)
    else (files, some (SplitError.writeError (i + 1)))

/-- The whole run of the script: read the input (`none` = the read fails),
split, `os.mkdir` (fails if the directory exists, does not create missing
parents), then the write loop.  Returns the final state of the output
directory path and the error, if any. -/
def runSplitter (input : Option (List Char)) (dir0 : DirState) (writeOk : Nat → Bool) :
    DirState × Option SplitError :=
  match input with
  | none => (dir0, some SplitError.inputError)
  | some s =>
    match dir0 with
    | DirState.missingParent => (DirState.missingParent, some SplitError.parentMissing)
    | DirState.present fs => (DirState.present fs, some SplitError.dirExists)
    | DirState.absent =>
      let r := writeLoop writeOk (withIdx 0 (reSplit s)) []
      (DirState.present r.1, r.2)

/-! Declarative semantics of the delimiter pattern, used to state the
specification claims. -/

/-- The regex `;.*\n\n` matches at offset `i` of `s`: the character at `i`
is `;`, followed by a run of non-newline characters, then two consecutive
newlines. -/
def MatchAt (s : List Char) (i : Nat) : Prop :=
  ∃ mid r, (∀ c ∈ mid, c ≠ '\n') ∧ s.drop i = ';' :: (mid ++ '\n' :: '\n' :: r)

/-- Boolean version of `MatchAt`. -/
def matchAtB (s : List Char) (i : Nat) : Bool :=
  match s.drop i with
  | [] => false
  | c :: t => c = ';' && (matchAfterSemi t).isSome

/-- The claim-side (spec-side) notion of a delimiter anchored at the start
of a line: the match additionally begins either at the start of the buffer
or right after a newline. -/
def MatchAtLineStart (s : List Char) (i : Nat) : Prop :=
  MatchAt s i ∧ (i = 0 ∨ (s.drop (i - 1)).head? = some '\n')

/-- Whether the string contains two consecutive newline characters. -/
def hasNN : List Char → Bool
  | [] => false
  | [_] => false
  | a :: b :: rest => (a = '\n' && b = '\n') || hasNN (b :: rest)

/-- Declarative characterization of splitting on the leftmost,
non-overlapping occurrences of the pattern `;.*\n\n`:
either no occurrence matches anywhere and the whole buffer is the single
segment, or the buffer decomposes as a first segment `pre` containing no
earlier match start, one delimiter occurrence
`;` + non-newlines + two newlines, and a tail that splits recursively. -/
inductive SplitRel : List Char → List (List Char) → Prop where
  | single : ∀ s : List Char, (∀ i, ¬ MatchAt s i) → SplitRel s [s]
  | delim : ∀ (pre mid rest : List Char) (segs : List (List Char)),
      (∀ c ∈ mid, c ≠ '\n') →
      (∀ j, j < pre.length → ¬ MatchAt (pre ++ ';' :: (mid ++ '\n' :: '\n' :: rest)) j) →
      SplitRel rest segs →
      SplitRel (pre ++ ';' :: (mid ++ '\n' :: '\n' :: rest)) (pre :: segs)

/-- Pure characterization of the write loop on the segment suffix whose
first segment has 0-based index `k`: the files it appends (in order) and
the error it stops with, if any. -/
def loopModel (writeOk : Nat → Bool) : Nat → List (List Char) →
    List (Nat × List Char) × Option SplitError
  | _, [] => ([], none)
  | k, seg :: rest =>
    if skipSeg seg then loopModel writeOk (k + 1) rest
    else if writeOk (k + 1) then
      ((k + 1, seg) :: (loopModel writeOk (k + 1) rest).1,
        (loopModel writeOk (k + 1) rest).2)
    else ([], some (SplitError.writeError (k + 1)))

/-- Concrete buffer with one delimiter whose marker `;` is not at the start
of a line: the characters of "A;x\n\nB". -/
def exNoAnchor : List Char := ['A', ';', 'x', '\n', '\n', 'B']

/-- Concrete buffer with one anchored delimiter: the characters of
"A\n;hd\n\nB\n". -/
def exBuf : List Char := ['A', '\n', ';', 'h', 'd', '\n', '\n', 'B', '\n']

/-- Concrete buffer with no delimiter: the characters of "solo\n". -/
def exSolo : List Char := ['s', 'o', 'l', 'o', '\n']

end Splitter

namespace Splitter

example : reSplit ['A', '\n', ';', 'h', 'd', '\n', '\n', 'B', '\n'] =
    [['A', '\n'], ['B', '\n']] := by decide

example : reSplit [';', 'o', '\n', '\n'] = [[], []] := by decide

example : reSplit ['A', ';', 'x', '\n', '\n', 'B'] = [['A'], ['B']] := by decide

example : reSplit [';', 'a', ';', 'b', '\n', '\n'] = [[], []] := by decide

example : reSplit [';', 'a', '\n', 'c', '\n', '\n'] =
    [[';', 'a', '\n', 'c', '\n', '\n']] := by decide

example : reSplit [';', 'a', '\n', '\n', '\n', '\n', 'b'] =
    [[], ['\n', '\n', 'b']] := by decide

example : reSplit [';', 'a', '\n', ';', 'b', '\n', '\n'] =
    [[';', 'a', '\n'], []] := by decide

example : reSplit ['A', '\n', ';', 'e', '\n'] = [['A', '\n', ';', 'e', '\n']] := by decide

example : pyIsspace [] = false := by decide

example : pyIsspace [' ', '\t', '\n'] = true := by decide

example : pyIsspace ['a', ' '] = false := by decide

example : splitterOutputs ['A', '\n', ';', 'h', '\n', '\n', '\n', '\n', ';', 'x', '\n', '\n', 'B'] =
    [(1, ['A', '\n']), (3, ['B'])] := by decide

end Splitter

namespace Splitter

/-! Basic lemmas about the matcher. -/

theorem matchAfterSemi_length : ∀ l r : List Char, matchAfterSemi l = some r →
    r.length + 2 ≤ l.length := by
  intro l
  induction l with
  | nil => intro r h; simp [matchAfterSemi] at h
  | cons c rest ih =>
    intro r h
    by_cases hc : c = '\n'
    · rw [hc] at h
      simp only [matchAfterSemi, if_pos rfl] at h
      by_cases hh : rest.head? = some '\n'
      · rw [if_pos hh] at h
        cases rest with
        | nil => simp at hh
        | cons d rest2 =>
          cases h
          simp
      · rw [if_neg hh] at h
        exact absurd h (by simp)
    · simp only [matchAfterSemi, if_neg hc] at h
      have := ih r h
      simp only [List.length_cons]
      omega

theorem matchAfterSemi_eq_some : ∀ l r : List Char, matchAfterSemi l = some r →
    ∃ mid, (∀ c ∈ mid, c ≠ '\n') ∧ l = mid ++ '\n' :: '\n' :: r := by
  intro l
  induction l with
  | nil => intro r h; simp [matchAfterSemi] at h
  | cons c rest ih =>
    intro r h
    by_cases hc : c = '\n'
    · subst hc
      simp only [matchAfterSemi, if_pos rfl] at h
      by_cases hh : rest.head? = some '\n'
      · rw [if_pos hh] at h
        cases rest with
        | nil => simp at hh
        | cons d rest2 =>
          simp only [List.head?_cons, Option.some.injEq] at hh
          subst hh
          cases h
          exact ⟨[], by simp, by simp⟩
      · rw [if_neg hh] at h
        exact absurd h (by simp)
    · simp only [matchAfterSemi, if_neg hc] at h
      obtain ⟨mid, hmid, hrest⟩ := ih r h
      refine ⟨c :: mid, ?_, by simp [hrest]⟩
      intro d hd
      rcases List.mem_cons.mp hd with h1 | h2
      · exact h1 ▸ hc
      · exact hmid d h2

theorem matchAfterSemi_of_mid : ∀ mid : List Char, (∀ c ∈ mid, c ≠ '\n') →
    ∀ r : List Char, matchAfterSemi (mid ++ '\n' :: '\n' :: r) = some r := by
  intro mid
  induction mid with
  | nil => intro _ r; simp [matchAfterSemi]
  | cons c mid2 ih =>
    intro h r
    have hc : c ≠ '\n' := h c (List.mem_cons_self c mid2)
    simp only [List.cons_append, matchAfterSemi, if_neg hc]
    exact ih (fun d hd => h d (List.mem_cons_of_mem c hd)) r

/-! Lemmas about `MatchAt`. -/

theorem MatchAt.lt_length {s : List Char} {i : Nat} (h : MatchAt s i) : i < s.length := by
  obtain ⟨mid, r, _, hd⟩ := h
  by_contra hle
  push_neg at hle
  rw [List.drop_of_length_le hle] at hd
  exact List.noConfusion hd

theorem matchAt_shift {c : Char} {s : List Char} {i : Nat} :
    MatchAt (c :: s) (i + 1) ↔ MatchAt s i := by
  unfold MatchAt
  rw [List.drop_succ_cons]

theorem matchAt_zero {c : Char} {s : List Char} :
    MatchAt (c :: s) 0 ↔ (c = ';' ∧ ∃ r, matchAfterSemi s = some r) := by
  constructor
  · rintro ⟨mid, r, hmid, hd⟩
    simp only [List.drop_zero, List.cons.injEq] at hd
    obtain ⟨hc, hs⟩ := hd
    exact ⟨hc, r, hs ▸ matchAfterSemi_of_mid mid hmid r⟩
  · rintro ⟨hc, r, hr⟩
    obtain ⟨mid, hmid, hs⟩ := matchAfterSemi_eq_some s r hr
    exact ⟨mid, r, hmid, by simp [hc, hs]⟩

theorem matchAt_iff_matchAtB {s : List Char} {i : Nat} :
    MatchAt s i ↔ matchAtB s i = true := by
  unfold MatchAt matchAtB
  cases hd : s.drop i with
  | nil =>
    simp only [iff_false, Bool.false_eq_true]
    rintro ⟨mid, r, _, h⟩
    exact List.noConfusion h
  | cons c t =>
    simp only [Bool.and_eq_true, decide_eq_true_eq, Option.isSome_iff_exists]
    constructor
    · rintro ⟨mid, r, hmid, h⟩
      obtain ⟨hc, ht⟩ := List.cons.injEq .. ▸ h
      exact ⟨hc, r, ht ▸ matchAfterSemi_of_mid mid hmid r⟩
    · rintro ⟨hc, r, hr⟩
      obtain ⟨mid, hmid, ht⟩ := matchAfterSemi_eq_some t r hr
      exact ⟨mid, r, hmid, by rw [ht, hc]⟩

end Splitter

namespace Splitter

/-! Stepping equations for the fueled scan. -/

theorem splitGoF_nil (fuel : Nat) (acc : List Char) :
    splitGoF fuel [] acc = [acc.reverse] := by
  cases fuel <;> rfl

theorem splitGoF_semi_some {rest r : List Char} (h : matchAfterSemi rest = some r)
    (fuel : Nat) (acc : List Char) :
    splitGoF (fuel + 1) (';' :: rest) acc = acc.reverse :: splitGoF fuel r [] := by
  simp [splitGoF, h]

theorem splitGoF_semi_none {rest : List Char} (h : matchAfterSemi rest = none)
    (fuel : Nat) (acc : List Char) :
    splitGoF (fuel + 1) (';' :: rest) acc = splitGoF fuel rest (';' :: acc) := by
  simp [splitGoF, h]

theorem splitGoF_cons {c : Char} (h : c ≠ ';') (rest : List Char)
    (fuel : Nat) (acc : List Char) :
    splitGoF (fuel + 1) (c :: rest) acc = splitGoF fuel rest (c :: acc) := by
  simp [splitGoF, h]

theorem countDelimsF_nil (fuel : Nat) : countDelimsF fuel [] = 0 := by
  cases fuel <;> rfl

theorem countDelimsF_semi_some {rest r : List Char} (h : matchAfterSemi rest = some r)
    (fuel : Nat) :
    countDelimsF (fuel + 1) (';' :: rest) = countDelimsF fuel r + 1 := by
  simp [countDelimsF, h]

theorem countDelimsF_semi_none {rest : List Char} (h : matchAfterSemi rest = none)
    (fuel : Nat) :
    countDelimsF (fuel + 1) (';' :: rest) = countDelimsF fuel rest := by
  simp [countDelimsF, h]

theorem countDelimsF_cons {c : Char} (h : c ≠ ';') (rest : List Char) (fuel : Nat) :
    countDelimsF (fuel + 1) (c :: rest) = countDelimsF fuel rest := by
  simp [countDelimsF, h]

/-- The scan result does not depend on the fuel, as long as the fuel is at
least the number of characters left. -/
theorem splitGoF_irrel : ∀ f1 f2 : Nat, ∀ l acc : List Char,
    l.length ≤ f1 → l.length ≤ f2 → splitGoF f1 l acc = splitGoF f2 l acc := by
  intro f1
  induction f1 with
  | zero =>
    intro f2 l acc h1 _
    have : l = [] := List.eq_nil_of_length_eq_zero (Nat.le_zero.mp h1)
    subst this
    rw [splitGoF_nil, splitGoF_nil]
  | succ f ih =>
    intro f2 l acc h1 h2
    cases l with
    | nil => rw [splitGoF_nil, splitGoF_nil]
    | cons c rest =>
      cases f2 with
      | zero => simp at h2
      | succ g =>
        simp only [List.length_cons] at h1 h2
        by_cases hc : c = ';'
        · subst hc
          cases hm : matchAfterSemi rest with
          | some r =>
            rw [splitGoF_semi_some hm, splitGoF_semi_some hm]
            have hr := matchAfterSemi_length rest r hm
            exact congrArg _ (ih g r [] (by omega) (by omega))
          | none =>
            rw [splitGoF_semi_none hm, splitGoF_semi_none hm]
            exact ih g rest _ (by omega) (by omega)
        · rw [splitGoF_cons hc, splitGoF_cons hc]
          exact ih g rest _ (by omega) (by omega)

theorem reSplit_eq_splitGoF {fuel : Nat} {s : List Char} (h : s.length ≤ fuel) :
    reSplit s = splitGoF fuel s [] :=
  splitGoF_irrel s.length fuel s [] (Nat.le_refl _) h

/-- When no offset of `l` matches the pattern, the scan consumes every
character into the current segment: the result is a single segment. -/
theorem splitGoF_noMatch : ∀ l : List Char, (∀ i, ¬ MatchAt l i) →
    ∀ fuel : Nat, l.length ≤ fuel → ∀ acc : List Char,
    splitGoF fuel l acc = [acc.reverse ++ l] := by
  intro l
  induction l with
  | nil => intro _ fuel _ acc; rw [splitGoF_nil]; simp
  | cons c rest ih =>
    intro hno fuel hf acc
    cases fuel with
    | zero => simp at hf
    | succ f =>
      simp only [List.length_cons] at hf
      have hrest : ∀ i, ¬ MatchAt rest i := fun i hi => hno (i + 1) (matchAt_shift.mpr hi)
      by_cases hc : c = ';'
      · subst hc
        cases hm : matchAfterSemi rest with
        | some r =>
          exact absurd (matchAt_zero.mpr ⟨rfl, r, hm⟩) (hno 0)
        | none =>
          rw [splitGoF_semi_none hm]
          rw [ih hrest f (by omega) _]
          simp
      · rw [splitGoF_cons hc]
        rw [ih hrest f (by omega) _]
        simp

/-- When the leftmost match of the pattern starts right after the prefix
`pre`, the scan emits `pre` (appended to the pending segment) and continues
after the matched delimiter. -/
theorem splitGoF_leftmost : ∀ pre : List Char, ∀ mid rest : List Char,
    (∀ c ∈ mid, c ≠ '\n') →
    (∀ j, j < pre.length → ¬ MatchAt (pre ++ ';' :: (mid ++ '\n' :: '\n' :: rest)) j) →
    ∀ fuel : Nat, (pre ++ ';' :: (mid ++ '\n' :: '\n' :: rest)).length ≤ fuel →
    ∀ acc : List Char,
    splitGoF fuel (pre ++ ';' :: (mid ++ '\n' :: '\n' :: rest)) acc =
      (acc.reverse ++ pre) :: reSplit rest := by
  intro pre
  induction pre with
  | nil =>
    intro mid rest hmid _ fuel hf acc
    simp only [List.nil_append] at hf ⊢
    cases fuel with
    | zero => simp at hf
    | succ f =>
      simp only [List.length_cons, List.length_append] at hf
      rw [splitGoF_semi_some (matchAfterSemi_of_mid mid hmid rest) f acc]
      rw [← reSplit_eq_splitGoF (by simp at hf; omega)]
      simp
  | cons c pre2 ih =>
    intro mid rest hmid hpre fuel hf acc
    cases fuel with
    | zero => simp at hf
    | succ f =>
      simp only [List.cons_append, List.length_cons] at hf ⊢
      have hno0 : ¬ MatchAt (c :: (pre2 ++ ';' :: (mid ++ '\n' :: '\n' :: rest))) 0 := by
        have := hpre 0 (by simp)
        simpa using this
      have hpre2 : ∀ j, j < pre2.length →
          ¬ MatchAt (pre2 ++ ';' :: (mid ++ '\n' :: '\n' :: rest)) j := by
        intro j hj hm
        have := hpre (j + 1) (by simp; omega)
        rw [List.cons_append] at this
        exact this (matchAt_shift.mpr hm)
      by_cases hc : c = ';'
      · subst hc
        cases hm : matchAfterSemi (pre2 ++ ';' :: (mid ++ '\n' :: '\n' :: rest)) with
        | some r =>
          exact absurd (matchAt_zero.mpr ⟨rfl, r, hm⟩) hno0
        | none =>
          rw [splitGoF_semi_none hm]
          rw [ih mid rest hmid hpre2 f (by omega) _]
          simp
      · rw [splitGoF_cons hc]
        rw [ih mid rest hmid hpre2 f (by omega) _]
        simp

end Splitter

namespace Splitter

/-- Soundness half: the decomposition computed by the code satisfies the
declarative leftmost-split relation. -/
theorem splitRel_reSplit : ∀ s : List Char, SplitRel s (reSplit s) := by
  have main : ∀ n : Nat, ∀ s : List Char, s.length ≤ n → SplitRel s (reSplit s) := by
    intro n
    induction n with
    | zero =>
      intro s hs
      have : s = [] := List.eq_nil_of_length_eq_zero (Nat.le_zero.mp hs)
      subst this
      have hno : ∀ i, ¬ MatchAt ([] : List Char) i := by
        rintro i ⟨mid, r, _, hd⟩
        rw [List.drop_nil] at hd
        exact List.noConfusion hd
      have : reSplit [] = [[]] := by rfl
      rw [this]
      exact SplitRel.single [] hno
    | succ n ih =>
      intro s hs
      by_cases hex : ∃ i, MatchAt s i
      · haveI : DecidablePred fun i => MatchAt s i := fun i => Classical.dec _
        set i0 := Nat.find hex with hi0
        have hmatch : MatchAt s i0 := Nat.find_spec hex
        have hmin : ∀ j, j < i0 → ¬ MatchAt s j := fun j hj => Nat.find_min hex hj
        obtain ⟨mid, r, hmid, hdrop⟩ := hmatch
        have hlt : i0 < s.length := MatchAt.lt_length ⟨mid, r, hmid, hdrop⟩
        have hdecomp : s = s.take i0 ++ ';' :: (mid ++ '\n' :: '\n' :: r) := by
          conv_lhs => rw [← List.take_append_drop i0 s]
          rw [hdrop]
        have hlen : (s.take i0).length = i0 := by
          rw [List.length_take]
          omega
        have hrlen : r.length ≤ n := by
          have := congrArg List.length hdecomp
          simp only [List.length_append, List.length_cons, List.length_append] at this
          omega
        have hsplit : reSplit s = s.take i0 :: reSplit r := by
          rw [reSplit]
          conv_lhs => rw [hdecomp]
          rw [splitGoF_leftmost (s.take i0) mid r hmid
            (by intro j hj; rw [← hdecomp]; exact hmin j (by omega))
            _ (Nat.le_refl _) []]
          simp
        rw [hsplit]
        conv_lhs => rw [hdecomp]
        exact SplitRel.delim (s.take i0) mid r (reSplit r)
          hmid
          (by intro j hj; rw [← hdecomp]; exact hmin j (by omega))
          (ih r hrlen)
      · push_neg at hex
        have : reSplit s = [s] := by
          rw [reSplit, splitGoF_noMatch s hex s.length (Nat.le_refl _) []]
          simp
        rw [this]
        exact SplitRel.single s hex
  exact fun s => main s.length s (Nat.le_refl _)

/-- Completeness half: any decomposition satisfying the declarative relation
is the one the code computes. -/
theorem reSplit_of_splitRel : ∀ {s : List Char} {segs : List (List Char)},
    SplitRel s segs → segs = reSplit s := by
  intro s segs h
  induction h with
  | single t hno =>
    rw [reSplit, splitGoF_noMatch t hno t.length (Nat.le_refl _) []]
    simp
  | delim pre mid rest segs hmid hpre _ ih =>
    rw [reSplit, splitGoF_leftmost pre mid rest hmid hpre _ (Nat.le_refl _) []]
    simp [ih]

/-! Lemmas about double newlines, used for inputs that contain no delimiter. -/

theorem hasNN_append_nn : ∀ a b : List Char, hasNN (a ++ '\n' :: '\n' :: b) = true := by
  intro a
  induction a with
  | nil => intro b; simp [hasNN]
  | cons x a2 ih =>
    intro b
    cases ha2 : a2 with
    | nil => simp [hasNN, ih b]
    | cons y a3 =>
      rw [← ha2]
      have : a2 ++ '\n' :: '\n' :: b = y :: (a3 ++ '\n' :: '\n' :: b) := by rw [ha2]; rfl
      simp only [List.cons_append, hasNN, this]
      rw [← this, ih b]
      simp

theorem matchAt_hasNN {s : List Char} {i : Nat} (h : MatchAt s i) : hasNN s = true := by
  obtain ⟨mid, r, _, hdrop⟩ := h
  have : s = (s.take i ++ ';' :: mid) ++ '\n' :: '\n' :: r := by
    conv_lhs => rw [← List.take_append_drop i s]
    rw [hdrop]
    simp
  rw [this]
  exact hasNN_append_nn _ r

theorem noMatch_of_not_hasNN {s : List Char} (h : hasNN s = false) :
    ∀ i, ¬ MatchAt s i := by
  intro i hm
  rw [matchAt_hasNN hm] at h
  exact Bool.noConfusion h

theorem hasNN_single_tail : ∀ (m : List Char) (x : Char), x ≠ '\n' →
    (∀ c ∈ m, c ≠ '\n') → hasNN (x :: (m ++ ['\n'])) = false := by
  intro m
  induction m with
  | nil => intro x hx _; simp [hasNN, hx]
  | cons y m2 ih =>
    intro x hx h
    have hy : y ≠ '\n' := h y (List.mem_cons_self y m2)
    have hm2 : ∀ c ∈ m2, c ≠ '\n' := fun c hc => h c (List.mem_cons_of_mem y hc)
    simp only [List.cons_append, hasNN, Bool.or_eq_false_iff]
    constructor
    · simp [hx]
    · exact ih y hy hm2

end Splitter

namespace Splitter

/-! A marker line at the end of the buffer that is not followed by a blank
line: the suffix `;` + non-newlines + one final newline contains no match,
and any match inside a longer buffer ending in that suffix lies entirely
before the suffix. -/

theorem matchAfterSemi_single_nl : ∀ m : List Char, (∀ c ∈ m, c ≠ '\n') →
    matchAfterSemi (m ++ ['\n']) = none := by
  intro m
  induction m with
  | nil => intro _; simp [matchAfterSemi]
  | cons c m2 ih =>
    intro h
    have hc : c ≠ '\n' := h c (List.mem_cons_self c m2)
    simp only [List.cons_append, matchAfterSemi, if_neg hc]
    exact ih fun d hd => h d (List.mem_cons_of_mem c hd)

theorem matchAfterSemi_marker_tail (m : List Char) (hm : ∀ c ∈ m, c ≠ '\n') :
    ∀ t r : List Char, matchAfterSemi (t ++ ';' :: (m ++ ['\n'])) = some r →
    ∃ t2, r = t2 ++ ';' :: (m ++ ['\n']) ∧ t2.length ≤ t.length := by
  intro t
  induction t with
  | nil =>
    intro r h
    have hsemi : (';' : Char) ≠ '\n' := by decide
    rw [List.nil_append] at h
    simp only [matchAfterSemi, if_neg hsemi] at h
    rw [matchAfterSemi_single_nl m hm] at h
    exact Option.noConfusion h
  | cons c t2 ih =>
    intro r h
    by_cases hc : c = '\n'
    · subst hc
      simp only [List.cons_append, matchAfterSemi, if_pos rfl, if_true] at h
      cases t2 with
      | nil => simp at h
      | cons d t3 =>
        by_cases hd : d = '\n'
        · subst hd
          simp only [List.append_eq, List.cons_append, List.head?_cons, if_pos rfl,
            if_true, List.tail_cons, Option.some.injEq] at h
          exact ⟨t3, h.symm, by simp; omega⟩
        · simp only [List.append_eq, List.cons_append, List.head?_cons,
            Option.some.injEq] at h
          rw [if_neg (by simpa using hd)] at h
          exact Option.noConfusion h
    · simp only [List.cons_append, matchAfterSemi, if_neg hc] at h
      obtain ⟨t3, hr, hlen⟩ := ih r h
      exact ⟨t3, hr, by simp; omega⟩

theorem splitGoF_marker_base (m : List Char) (hm : ∀ c ∈ m, c ≠ '\n')
    (fuel : Nat) (hf : (';' :: (m ++ ['\n'])).length ≤ fuel) (acc : List Char) :
    splitGoF fuel (';' :: (m ++ ['\n'])) acc = [acc.reverse ++ ';' :: (m ++ ['\n'])] :=
  splitGoF_noMatch _ (noMatch_of_not_hasNN (hasNN_single_tail m ';' (by decide) hm))
    fuel hf acc

/-- Scanning any buffer that ends in a marker line with no blank line after
it leaves that marker line inside the final segment. -/
theorem splitGoF_marker_tail (m : List Char) (hm : ∀ c ∈ m, c ≠ '\n') :
    ∀ n : Nat, ∀ t : List Char, t.length ≤ n →
    ∀ fuel : Nat, (t ++ ';' :: (m ++ ['\n'])).length ≤ fuel → ∀ acc : List Char,
    ∃ L z, splitGoF fuel (t ++ ';' :: (m ++ ['\n'])) acc =
      L ++ [z ++ ';' :: (m ++ ['\n'])] := by
  intro n
  induction n with
  | zero =>
    intro t ht fuel hf acc
    have : t = [] := List.eq_nil_of_length_eq_zero (Nat.le_zero.mp ht)
    subst this
    rw [List.nil_append] at hf ⊢
    exact ⟨[], acc.reverse, by
      rw [splitGoF_marker_base m hm fuel hf acc]
      simp⟩
  | succ n ih =>
    intro t ht fuel hf acc
    cases t with
    | nil =>
      rw [List.nil_append] at hf ⊢
      exact ⟨[], acc.reverse, by
        rw [splitGoF_marker_base m hm fuel hf acc]
        simp⟩
    | cons c t2 =>
      cases fuel with
      | zero => simp at hf
      | succ f =>
        rw [List.cons_append] at hf ⊢
        simp only [List.length_cons] at hf ht
        by_cases hc : c = ';'
        · subst hc
          cases hmm : matchAfterSemi (t2 ++ ';' :: (m ++ ['\n'])) with
          | some r =>
            obtain ⟨t3, hr, hlen⟩ := matchAfterSemi_marker_tail m hm t2 r hmm
            have hflen := matchAfterSemi_length _ _ hmm
            rw [splitGoF_semi_some hmm f acc]
            subst hr
            obtain ⟨L2, z2, h2⟩ := ih t3 (by omega) f (by
              simp only [List.length_append] at hflen hf ⊢
              omega) []
            exact ⟨acc.reverse :: L2, z2, by rw [h2]; rfl⟩
          | none =>
            rw [splitGoF_semi_none hmm f acc]
            exact ih t2 (by omega) f (by simp only [List.length_append] at hf ⊢; omega)
              (';' :: acc)
        · rw [splitGoF_cons hc _ f acc]
          exact ih t2 (by omega) f (by simp only [List.length_append] at hf ⊢; omega)
            (c :: acc)

/-! Lemmas about the output-file list. -/

theorem segOutputs_nil (k : Nat) : segOutputs k [] = [] := rfl

theorem segOutputs_cons (k : Nat) (x : List Char) (xs : List (List Char)) :
    segOutputs k (x :: xs) =
      (if skipSeg x then [] else [(k + 1, x)]) ++ segOutputs (k + 1) xs := by
  by_cases hx : skipSeg x
  · simp [segOutputs, withIdx, hx]
  · simp [segOutputs, withIdx, hx]

theorem segOutputs_append : ∀ (a b : List (List Char)) (k : Nat),
    segOutputs k (a ++ b) = segOutputs k a ++ segOutputs (k + a.length) b := by
  intro a
  induction a with
  | nil => intro b k; simp [segOutputs_nil]
  | cons x a2 ih =>
    intro b k
    rw [List.cons_append, segOutputs_cons, segOutputs_cons, ih b (k + 1)]
    simp only [List.length_cons, List.append_assoc]
    have : k + 1 + a2.length = k + (a2.length + 1) := by omega
    rw [this]

theorem mem_segOutputs : ∀ (l : List (List Char)) (k n : Nat) (c : List Char),
    ((n, c) ∈ segOutputs k l ↔ ∃ i, l[i]? = some c ∧ n = k + i + 1 ∧ skipSeg c = false) := by
  intro l
  induction l with
  | nil =>
    intro k n c
    simp [segOutputs_nil]
  | cons x xs ih =>
    intro k n c
    rw [segOutputs_cons]
    by_cases hx : skipSeg x
    · rw [if_pos hx]
      rw [List.nil_append, ih (k + 1) n c]
      constructor
      · rintro ⟨i, hi, hn, hc⟩
        exact ⟨i + 1, by simpa using hi, by omega, hc⟩
      · rintro ⟨i, hi, hn, hc⟩
        cases i with
        | zero =>
          simp only [List.getElem?_cons_zero, Option.some.injEq] at hi
          subst hi
          exact absurd hx (by rw [hc]; simp)
        | succ j =>
          simp only [List.getElem?_cons_succ] at hi
          exact ⟨j, hi, by omega, hc⟩
    · rw [if_neg hx]
      simp only [List.cons_append, List.nil_append, List.mem_cons, Prod.mk.injEq]
      rw [ih (k + 1) n c]
      constructor
      · rintro (⟨hn, hc⟩ | ⟨i, hi, hn, hc⟩)
        · subst hc
          exact ⟨0, by simp, by omega, by simpa using hx⟩
        · exact ⟨i + 1, by simpa using hi, by omega, hc⟩
      · rintro ⟨i, hi, hn, hc⟩
        cases i with
        | zero =>
          simp only [List.getElem?_cons_zero, Option.some.injEq] at hi
          subst hi
          exact Or.inl ⟨by omega, rfl⟩
        | succ j =>
          simp only [List.getElem?_cons_succ] at hi
          exact Or.inr ⟨j, hi, by omega, hc⟩

theorem segOutputs_names_lt : ∀ (l : List (List Char)) (k : Nat),
    (∀ p ∈ segOutputs k l, k + 1 ≤ p.1) ∧
      List.Pairwise (fun p q : Nat × List Char => p.1 < q.1) (segOutputs k l) := by
  intro l
  induction l with
  | nil => intro k; simp [segOutputs_nil]
  | cons x xs ih =>
    intro k
    rw [segOutputs_cons]
    by_cases hx : skipSeg x
    · rw [if_pos hx, List.nil_append]
      obtain ⟨h1, h2⟩ := ih (k + 1)
      exact ⟨fun p hp => by have := h1 p hp; omega, h2⟩
    · rw [if_neg hx]
      obtain ⟨h1, h2⟩ := ih (k + 1)
      constructor
      · intro p hp
        rcases List.mem_append.mp hp with h | h
        · simp only [List.mem_singleton] at h
          subst h
          omega
        · have := h1 p h
          omega
      · simp only [List.singleton_append, List.pairwise_cons]
        exact ⟨fun q hq => by have := h1 q hq; simp; omega, h2⟩

end Splitter

namespace Splitter

/-! Characterization of the write loop. -/

theorem openWriteW_fresh {files : List (Nat × List Char)} {name : Nat}
    (h : ∀ p ∈ files, p.1 ≠ name) (content : List Char) :
    openWriteW files name content = files ++ [(name, content)] := by
  rw [openWriteW, if_neg]
  simp only [List.any_eq_true, decide_eq_true_eq, not_exists, not_and]
  exact fun p hp => h p hp

/-- Master lemma: starting from a directory whose file names are all at most
`k`, the write loop on the segments indexed from `k` appends exactly the
files described by `loopModel` and stops with its error. -/
theorem writeLoop_model (writeOk : Nat → Bool) : ∀ (l : List (List Char)) (k : Nat)
    (files : List (Nat × List Char)), (∀ p ∈ files, p.1 ≤ k) →
    writeLoop writeOk (withIdx k l) files =
      (files ++ (loopModel writeOk k l).1, (loopModel writeOk k l).2) := by
  intro l
  induction l with
  | nil => intro k files _; simp [withIdx, writeLoop, loopModel]
  | cons seg rest ih =>
    intro k files hb
    rw [withIdx]
    by_cases hs : skipSeg seg
    · rw [writeLoop, if_pos hs, loopModel, if_pos hs]
      exact ih (k + 1) files fun p hp => by have := hb p hp; omega
    · by_cases hw : writeOk (k + 1)
      · rw [writeLoop, if_neg hs, if_pos hw, loopModel, if_neg hs, if_pos hw]
        rw [openWriteW_fresh (fun p hp => by have := hb p hp; omega) seg]
        rw [ih (k + 1) (files ++ [(k + 1, seg)]) (by
          intro p hp
          rcases List.mem_append.mp hp with h | h
          · have := hb p h; omega
          · simp only [List.mem_singleton] at h
            subst h
            exact Nat.le_refl _)]
        simp
      · rw [writeLoop, if_neg hs, if_neg hw, loopModel, if_neg hs, if_neg hw]
        simp

theorem loopModel_none (writeOk : Nat → Bool) : ∀ (l : List (List Char)) (k : Nat),
    (loopModel writeOk k l).2 = none → (loopModel writeOk k l).1 = segOutputs k l := by
  intro l
  induction l with
  | nil => intro k _; simp [loopModel, segOutputs_nil]
  | cons seg rest ih =>
    intro k h
    rw [segOutputs_cons]
    by_cases hs : skipSeg seg
    · rw [loopModel, if_pos hs] at h ⊢
      rw [if_pos hs, List.nil_append]
      exact ih (k + 1) h
    · by_cases hw : writeOk (k + 1)
      · rw [loopModel, if_neg hs, if_pos hw] at h ⊢
        simp only at h
        rw [if_neg hs, ih (k + 1) h]
        rfl
      · rw [loopModel, if_neg hs, if_neg hw] at h
        exact Option.noConfusion h

theorem loopModel_names (writeOk : Nat → Bool) : ∀ (l : List (List Char)) (k : Nat),
    (∀ p ∈ (loopModel writeOk k l).1, k + 1 ≤ p.1) ∧
      List.Pairwise (fun p q : Nat × List Char => p.1 < q.1) (loopModel writeOk k l).1 := by
  intro l
  induction l with
  | nil => intro k; simp [loopModel]
  | cons seg rest ih =>
    intro k
    by_cases hs : skipSeg seg
    · rw [loopModel, if_pos hs]
      obtain ⟨h1, h2⟩ := ih (k + 1)
      exact ⟨fun p hp => by have := h1 p hp; omega, h2⟩
    · by_cases hw : writeOk (k + 1)
      · rw [loopModel, if_neg hs, if_pos hw]
        obtain ⟨h1, h2⟩ := ih (k + 1)
        constructor
        · intro p hp
          rcases List.mem_cons.mp hp with h | h
          · subst h; simp
          · have := h1 p h; omega
        · rw [List.pairwise_cons]
          exact ⟨fun q hq => by have := h1 q hq; simp; omega, h2⟩
      · rw [loopModel, if_neg hs, if_neg hw]
        simp

/-- Behavior of a run on an absent directory, in terms of the loop model. -/
theorem runSplitter_absent (s : List Char) (writeOk : Nat → Bool) :
    runSplitter (some s) DirState.absent writeOk =
      (DirState.present (loopModel writeOk 0 (reSplit s)).1,
        (loopModel writeOk 0 (reSplit s)).2) := by
  rw [runSplitter]
  rw [writeLoop_model writeOk (reSplit s) 0 [] (by simp)]
  simp

/-- The loop model when the first failing surviving segment is at 0-based
index `a.length`: everything before it is written, then the loop aborts. -/
theorem loopModel_error (writeOk : Nat → Bool) :
    ∀ (a : List (List Char)) (k : Nat) (seg : List Char) (b : List (List Char)),
    skipSeg seg = false → writeOk (k + a.length + 1) = false →
    (∀ j t, a[j]? = some t → skipSeg t = false → writeOk (k + j + 1) = true) →
    loopModel writeOk k (a ++ seg :: b) =
      (segOutputs k a, some (SplitError.writeError (k + a.length + 1))) := by
  intro a
  induction a with
  | nil =>
    intro k seg b hseg hw _
    simp only [List.nil_append, List.length_nil] at hw ⊢
    rw [loopModel, if_neg (by rw [hseg]; exact Bool.false_ne_true),
      if_neg (by rw [Nat.add_zero] at hw; rw [hw]; exact Bool.false_ne_true)]
    rw [segOutputs_nil, Nat.add_zero]
  | cons x a2 ih =>
    intro k seg b hseg hw hpre
    simp only [List.length_cons] at hw ⊢
    have hw2 : writeOk (k + 1 + a2.length + 1) = false := by
      have : k + 1 + a2.length + 1 = k + (a2.length + 1) + 1 := by omega
      rw [this]
      exact hw
    have hpre2 : ∀ j t, a2[j]? = some t → skipSeg t = false →
        writeOk (k + 1 + j + 1) = true := fun j t hj ht => by
      have := hpre (j + 1) t (by simpa using hj) ht
      have heq : k + 1 + j + 1 = k + (j + 1) + 1 := by omega
      rw [heq]
      exact this
    have hord : k + 1 + a2.length + 1 = k + (a2.length + 1) + 1 := by omega
    rw [List.cons_append, segOutputs_cons]
    by_cases hx : skipSeg x
    · rw [loopModel, if_pos hx, if_pos hx, List.nil_append]
      rw [ih (k + 1) seg b hseg hw2 hpre2]
      rw [hord]
    · have hwx : writeOk (k + 1) = true := by
        have := hpre 0 x (by simp) (by simpa using hx)
        simpa using this
      rw [loopModel, if_neg hx, if_pos hwx, if_neg hx]
      rw [ih (k + 1) seg b hseg hw2 hpre2]
      rw [List.singleton_append, hord]

/-- The number of segments is always one more than the number of delimiter
matches consumed by the scan. -/
theorem splitGoF_length_eq : ∀ (fuel : Nat) (l : List Char), l.length ≤ fuel →
    ∀ acc : List Char, (splitGoF fuel l acc).length = countDelimsF fuel l + 1 := by
  intro fuel
  induction fuel with
  | zero =>
    intro l hl acc
    have : l = [] := List.eq_nil_of_length_eq_zero (Nat.le_zero.mp hl)
    subst this
    rw [splitGoF_nil, countDelimsF_nil]
    rfl
  | succ f ih =>
    intro l hl acc
    cases l with
    | nil =>
      rw [splitGoF_nil, countDelimsF_nil]
      rfl
    | cons c rest =>
      simp only [List.length_cons] at hl
      by_cases hc : c = ';'
      · subst hc
        cases hm : matchAfterSemi rest with
        | some r =>
          rw [splitGoF_semi_some hm, countDelimsF_semi_some hm]
          have := matchAfterSemi_length rest r hm
          rw [List.length_cons, ih r (by omega) []]
        | none =>
          rw [splitGoF_semi_none hm, countDelimsF_semi_none hm]
          exact ih rest (by omega) _
      · rw [splitGoF_cons hc, countDelimsF_cons hc]
        exact ih rest (by omega) _

theorem reSplit_length (s : List Char) : (reSplit s).length = countDelims s + 1 :=
  splitGoF_length_eq s.length s (Nat.le_refl _) []

end Splitter

namespace Splitter

/-! Helpers about the skip test. -/

theorem skipSeg_eq_false_iff {seg : List Char} :
    skipSeg seg = false ↔ (seg ≠ [] ∧ ¬ (∀ c ∈ seg, pyIsSpaceChar c = true)) := by
  cases seg with
  | nil => simp [skipSeg]
  | cons c rest => simp [skipSeg, pyIsspace, List.all_eq_true]

theorem skipSeg_false_of_semi {seg : List Char} (h : (';' : Char) ∈ seg) :
    skipSeg seg = false := by
  rw [skipSeg_eq_false_iff]
  exact ⟨List.ne_nil_of_mem h, fun hall => by
    have := hall ';' h
    exact absurd this (by decide)⟩

end Splitter

namespace Splitter

/-! Settlement of the specification claims. -/

/-- Claim C1, counterexample.  The buffer "A;x\n\nB" contains no occurrence
of the delimiter pattern anchored at the start of a line (its only `;` is
mid-line), yet the code splits it into two segments rather than leaving it
as the single segment the claim requires; the mid-line `;` does act as a
delimiter. -/
theorem c1_midline_semicolon_is_boundary :
    (∀ i, ¬ MatchAtLineStart exNoAnchor i) ∧
      reSplit exNoAnchor = [['A'], ['B']] ∧ reSplit exNoAnchor ≠ [exNoAnchor] := by
  refine ⟨?_, by decide, by decide⟩
  rintro i ⟨hm, ha⟩
  have hlt : i < exNoAnchor.length := hm.lt_length
  rw [matchAt_iff_matchAtB] at hm
  have h6 : i < 6 := by simpa [exNoAnchor] using hlt
  interval_cases i
  · exact absurd hm (by decide)
  · exact absurd ha (by decide)
  · exact absurd hm (by decide)
  · exact absurd hm (by decide)
  · exact absurd hm (by decide)
  · exact absurd hm (by decide)

/-- Claim C1, amended: for every input buffer the split boundaries are
exactly the leftmost, non-overlapping occurrences of the pattern: a `;`
occurring anywhere in a line (not necessarily at its start), followed by
any characters up to the end of the line, immediately followed by a blank
line.  `SplitRel` is the declarative statement of that decomposition, and
it characterizes precisely the segment list the code computes. -/
theorem c1_boundaries_are_leftmost_pattern_matches :
    ∀ (s : List Char) (segs : List (List Char)), SplitRel s segs ↔ segs = reSplit s :=
  fun s _ =>
    ⟨fun h => reSplit_of_splitRel h, fun h => h ▸ splitRel_reSplit s⟩

/-- Claim C2: splitting an input with `n` delimiter occurrences yields
exactly `n + 1` segments; an output file named with ordinal `p.1` exists
exactly for the non-skipped segments, carrying the 1-based position in the
full unfiltered split sequence; all ordinals lie in `{1, ..., n + 1}` and
appear in strictly increasing order (survivors are not renumbered). -/
theorem c2_segment_count_and_ordinals :
    ∀ s : List Char,
      (reSplit s).length = countDelims s + 1 ∧
      (∀ p ∈ splitterOutputs s, 1 ≤ p.1 ∧ p.1 ≤ countDelims s + 1) ∧
      (∀ n c, ((n, c) ∈ splitterOutputs s ↔
        ∃ i, (reSplit s)[i]? = some c ∧ n = i + 1 ∧ skipSeg c = false)) ∧
      List.Pairwise (fun p q : Nat × List Char => p.1 < q.1) (splitterOutputs s) := by
  intro s
  have hmem : ∀ n c, ((n, c) ∈ splitterOutputs s ↔
      ∃ i, (reSplit s)[i]? = some c ∧ n = i + 1 ∧ skipSeg c = false) := by
    intro n c
    rw [splitterOutputs, mem_segOutputs]
    constructor
    · rintro ⟨i, hi, hn, hc⟩
      exact ⟨i, hi, by omega, hc⟩
    · rintro ⟨i, hi, hn, hc⟩
      exact ⟨i, hi, by omega, hc⟩
  refine ⟨reSplit_length s, ?_, hmem, (segOutputs_names_lt (reSplit s) 0).2⟩
  rintro ⟨n, c⟩ hp
  obtain ⟨i, hi, hn, _⟩ := (hmem n c).mp hp
  have hidx : i < (reSplit s).length := by
    rcases List.getElem?_eq_some.mp hi with ⟨h, _⟩
    exact h
  rw [reSplit_length s] at hidx
  simp only
  omega

/-- Claim C3: segment `i` of the split sequence produces an output file if
and only if it is non-empty and not composed entirely of whitespace
characters; the file then carries the segment's content verbatim (the
output pair is exactly `(i + 1, seg)`). -/
theorem c3_written_iff_nonblank :
    ∀ (s : List Char) (i : Nat) (seg : List Char), (reSplit s)[i]? = some seg →
      (((i + 1, seg) ∈ splitterOutputs s) ↔
        (seg ≠ [] ∧ ¬ (∀ c ∈ seg, pyIsSpaceChar c = true))) := by
  intro s i seg hseg
  rw [splitterOutputs, mem_segOutputs, ← skipSeg_eq_false_iff]
  constructor
  · rintro ⟨j, _, _, hc⟩
    exact hc
  · intro hc
    exact ⟨i, hseg, by omega, hc⟩

/-- Claim C3, witness at the buffer "A\n;hd\n\nB\n", segment 0. -/
theorem c3_written_iff_nonblank_witness :
    (reSplit exBuf)[0]? = some ['A', '\n'] ∧
      (((0 + 1, ['A', '\n']) ∈ splitterOutputs exBuf) ↔
        ((['A', '\n'] : List Char) ≠ [] ∧
          ¬ (∀ c ∈ (['A', '\n'] : List Char), pyIsSpaceChar c = true))) :=
  ⟨by decide, c3_written_iff_nonblank exBuf 0 ['A', '\n'] (by decide)⟩

/-- Claim C4: with the output directory already present the run fails with
the directory-exists error and the directory contents are untouched (no
merge, no overwrite); with a missing parent directory the run fails without
creating anything (no recursive creation of parents). -/
theorem c4_preexisting_dir_fails_creates_nothing :
    ∀ (s : List Char) (w : Nat → Bool) (fs : List (Nat × List Char)),
      runSplitter (some s) (DirState.present fs) w =
        (DirState.present fs, some SplitError.dirExists) ∧
      runSplitter (some s) DirState.missingParent w =
        (DirState.missingParent, some SplitError.parentMissing) :=
  fun _ _ _ => ⟨rfl, rfl⟩

/-- Claim C5, counterexample.  The write primitive of the code is
`open(path, 'w')`, which does not fail when a file of that name is already
present: it truncates and overwrites it.  Writing content "B" over an
existing file `1.txt` holding "A" succeeds and replaces the content. -/
theorem c5_open_w_overwrites_existing :
    openWriteW [(1, ['A'])] 1 ['B'] = [(1, ['B'])] := by decide

/-- Claim C5, amended: in every run started against a fresh directory each
surviving segment's file is created fresh — the ordinals of the files in
the directory are strictly increasing (hence pairwise distinct, so no write
ever targets an existing name); the write primitive itself would overwrite,
not fail, if a file were somehow present. -/
theorem c5_writes_fresh_strictly_increasing :
    ∀ (s : List Char) (w : Nat → Bool) (L : List (Nat × List Char))
      (err : Option SplitError),
      runSplitter (some s) DirState.absent w = (DirState.present L, err) →
      List.Pairwise (fun p q : Nat × List Char => p.1 < q.1) L ∧ ∀ p ∈ L, 1 ≤ p.1 := by
  intro s w L err h
  rw [runSplitter_absent] at h
  obtain ⟨h1, _⟩ := Prod.mk.injEq .. ▸ h
  have hL : L = (loopModel w 0 (reSplit s)).1 := (DirState.present.injEq .. ▸ h1).symm
  subst hL
  obtain ⟨hb, hp⟩ := loopModel_names w (reSplit s) 0
  exact ⟨hp, fun p hp2 => hb p hp2⟩

/-- Claim C5, witness: a successful concrete run, whose output ordinals are
strictly increasing. -/
theorem c5_writes_fresh_strictly_increasing_witness :
    runSplitter (some exBuf) DirState.absent (fun _ => true) =
      (DirState.present [(1, ['A', '\n']), (2, ['B', '\n'])], none) ∧
      (List.Pairwise (fun p q : Nat × List Char => p.1 < q.1)
        [(1, ['A', '\n']), (2, ['B', '\n'])] ∧
        ∀ p ∈ ([(1, ['A', '\n']), (2, ['B', '\n'])] : List (Nat × List Char)), 1 ≤ p.1) :=
  ⟨by decide, c5_writes_fresh_strictly_increasing exBuf (fun _ => true)
    [(1, ['A', '\n']), (2, ['B', '\n'])] none (by decide)⟩

/-- Claim C6: an input with no delimiter occurrence splits into exactly one
segment, the whole buffer; if that buffer is not blank, exactly the single
file `1.txt` is produced, containing the buffer. -/
theorem c6_no_delimiter_single_segment :
    ∀ s : List Char, (∀ i, ¬ MatchAt s i) →
      reSplit s = [s] ∧ (skipSeg s = false → splitterOutputs s = [(1, s)]) := by
  intro s hno
  have h1 : reSplit s = [s] := by
    rw [reSplit, splitGoF_noMatch s hno s.length (Nat.le_refl _) []]
    simp
  refine ⟨h1, fun hskip => ?_⟩
  rw [splitterOutputs, h1, segOutputs_cons, if_neg (by rw [hskip]; exact Bool.false_ne_true),
    segOutputs_nil]
  rfl

/-- Claim C6, witness at the delimiter-free buffer "solo\n". -/
theorem c6_no_delimiter_single_segment_witness :
    reSplit exSolo = [exSolo] ∧
      (skipSeg exSolo = false → splitterOutputs exSolo = [(1, exSolo)]) :=
  c6_no_delimiter_single_segment exSolo (noMatch_of_not_hasNN (by decide))

/-- Claim C7: when the write of the first surviving segment at position
`a.length` fails, the run stops with a write error for that ordinal; the
directory holds exactly the files of the surviving segments before it
(earlier writes are kept, later segments are never processed, nothing is
rolled back). -/
theorem c7_write_error_aborts_keeps_previous :
    ∀ (s : List Char) (w : Nat → Bool) (a : List (List Char)) (seg : List Char)
      (b : List (List Char)),
      reSplit s = a ++ seg :: b →
      skipSeg seg = false →
      w (a.length + 1) = false →
      (∀ j t, a[j]? = some t → skipSeg t = false → w (j + 1) = true) →
      runSplitter (some s) DirState.absent w =
        (DirState.present (segOutputs 0 a), some (SplitError.writeError (a.length + 1))) := by
  intro s w a seg b hsplit hseg hw hpre
  rw [runSplitter_absent, hsplit]
  rw [loopModel_error w a 0 seg b hseg (by simpa using hw)
    (fun j t hj ht => by simpa using hpre j t hj ht)]
  simp

/-- Claim C7, witness: on "A\n;hd\n\nB\n" with the write of `2.txt`
failing, the run keeps `1.txt` and aborts with a write error for ordinal 2. -/
theorem c7_write_error_aborts_keeps_previous_witness :
    reSplit exBuf = [['A', '\n']] ++ ['B', '\n'] :: [] ∧
      skipSeg ['B', '\n'] = false ∧
      (fun n => n == 1) ([['A', '\n']].length + 1) = false ∧
      runSplitter (some exBuf) DirState.absent (fun n => n == 1) =
        (DirState.present (segOutputs 0 [['A', '\n']]),
          some (SplitError.writeError ([['A', '\n']].length + 1))) :=
  ⟨by decide, by decide, by decide,
    c7_write_error_aborts_keeps_previous exBuf (fun n => n == 1)
      [['A', '\n']] ['B', '\n'] [] (by decide) (by decide) (by decide)
      (fun j t hj ht => by
        cases j with
        | zero =>
          simp only [List.getElem?_cons_zero, Option.some.injEq] at hj
          subst hj
          rfl
        | succ i => simp at hj)⟩

/-- Claim C8: the set of output files of a successful run is a function of
the input buffer alone — two successful runs on the same buffer against a
fresh directory produce the same filenames with byte-identical contents,
regardless of the environment, and that common value is `splitterOutputs`. -/
theorem c8_outputs_deterministic :
    ∀ (s : List Char) (w1 w2 : Nat → Bool) (L1 L2 : List (Nat × List Char)),
      runSplitter (some s) DirState.absent w1 = (DirState.present L1, none) →
      runSplitter (some s) DirState.absent w2 = (DirState.present L2, none) →
      L1 = L2 ∧ L1 = splitterOutputs s := by
  intro s w1 w2 L1 L2 h1 h2
  rw [runSplitter_absent] at h1 h2
  obtain ⟨h1a, h1b⟩ := Prod.mk.injEq .. ▸ h1
  obtain ⟨h2a, h2b⟩ := Prod.mk.injEq .. ▸ h2
  have e1 : L1 = (loopModel w1 0 (reSplit s)).1 := (DirState.present.injEq .. ▸ h1a).symm
  have e2 : L2 = (loopModel w2 0 (reSplit s)).1 := (DirState.present.injEq .. ▸ h2a).symm
  have o1 : L1 = splitterOutputs s := by
    rw [e1, loopModel_none w1 (reSplit s) 0 h1b]
    rfl
  have o2 : L2 = splitterOutputs s := by
    rw [e2, loopModel_none w2 (reSplit s) 0 h2b]
    rfl
  exact ⟨o1.trans o2.symm, o1⟩

/-- Claim C8, witness: two concrete successful runs agree. -/
theorem c8_outputs_deterministic_witness :
    runSplitter (some exBuf) DirState.absent (fun _ => true) =
      (DirState.present [(1, ['A', '\n']), (2, ['B', '\n'])], none) ∧
      ([(1, ['A', '\n']), (2, ['B', '\n'])] : List (Nat × List Char)) =
        [(1, ['A', '\n']), (2, ['B', '\n'])] ∧
      ([(1, ['A', '\n']), (2, ['B', '\n'])] : List (Nat × List Char)) =
        splitterOutputs exBuf :=
  ⟨by decide,
    (c8_outputs_deterministic exBuf (fun _ => true) (fun _ => true)
      [(1, ['A', '\n']), (2, ['B', '\n'])] [(1, ['A', '\n']), (2, ['B', '\n'])]
      (by decide) (by decide)).1,
    (c8_outputs_deterministic exBuf (fun _ => true) (fun _ => true)
      [(1, ['A', '\n']), (2, ['B', '\n'])] [(1, ['A', '\n']), (2, ['B', '\n'])]
      (by decide) (by decide)).2⟩

/-- Claim C9: when reading the input fails, the program stops before
creating anything: the output directory path is left in its prior state (in
particular it is not created) and no file is written, because the read
happens before the directory creation. -/
theorem c9_input_error_creates_nothing :
    ∀ (d : DirState) (w : Nat → Bool),
      runSplitter none d w = (d, some SplitError.inputError) :=
  fun _ _ => rfl

/-- Claim C10: a line starting with `;` at the very end of the buffer, with
no blank line after it (a single trailing newline), is not treated as a
delimiter: it stays inside the final segment, and that segment — being
non-blank, as it contains `;` — is written verbatim, marker line included,
as the file of the last ordinal. -/
theorem c10_trailing_marker_stays_in_segment :
    ∀ t m : List Char, (∀ c ∈ m, c ≠ '\n') →
      ∃ L z, reSplit (t ++ ';' :: (m ++ ['\n'])) = L ++ [z ++ ';' :: (m ++ ['\n'])] ∧
        splitterOutputs (t ++ ';' :: (m ++ ['\n'])) =
          segOutputs 0 L ++ [(L.length + 1, z ++ ';' :: (m ++ ['\n']))] := by
  intro t m hm
  obtain ⟨L, z, hsplit⟩ := splitGoF_marker_tail m hm t.length t (Nat.le_refl _)
    (t ++ ';' :: (m ++ ['\n'])).length (Nat.le_refl _) []
  have hre : reSplit (t ++ ';' :: (m ++ ['\n'])) = L ++ [z ++ ';' :: (m ++ ['\n'])] := hsplit
  refine ⟨L, z, hre, ?_⟩
  rw [splitterOutputs, hre, segOutputs_append, segOutputs_cons,
    if_neg (by
      rw [skipSeg_false_of_semi (by simp)]
      exact Bool.false_ne_true),
    segOutputs_nil]
  simp

/-- Claim C10, witness at the buffer "A\n;end\n". -/
theorem c10_trailing_marker_stays_in_segment_witness :
    (∀ c ∈ (['e', 'n', 'd'] : List Char), c ≠ '\n') ∧
      (∃ L z, reSplit (['A', '\n'] ++ ';' :: (['e', 'n', 'd'] ++ ['\n'])) =
          L ++ [z ++ ';' :: (['e', 'n', 'd'] ++ ['\n'])] ∧
        splitterOutputs (['A', '\n'] ++ ';' :: (['e', 'n', 'd'] ++ ['\n'])) =
          segOutputs 0 L ++ [(L.length + 1, z ++ ';' :: (['e', 'n', 'd'] ++ ['\n']))]) :=
  ⟨by decide, c10_trailing_marker_stays_in_segment ['A', '\n'] ['e', 'n', 'd'] (by decide)⟩

end Splitter
